import Mathlib

/-!
# The automaton benchmark drivers of `lm/automaton_benchmark_main.cc`

A shallow embedding of the two scoring drivers (`ModelScore`, `PipelineScore`), of
`DispatchFunction` and of `CheckEqual`, with the properties of the way the drivers feed a
token file to the language model.

Conventions of the embedding.

* A token (`lm::WordIndex`) is a natural number; `w` stands for `sizeof(lm::WordIndex)`,
  whose declaration lives outside this file (`unsigned int`, four bytes, in KenLM).
* The query file is the list `input` of its whole tokens followed by `tail % w` stray
  bytes that do not make up a token.
* The language model is abstract: `begin_state` is `model.BeginSentenceState()`, `kEOS`
  is `model.GetVocabulary().EndSentence()` and `fullScore s t` is the state that
  `model.FullScore(s, t, out)` writes to `out`.  The floating-point sum `score` is not
  modelled; the calls that feed it are.
* The pipeline is an event sink: a run records the calls `AppendWords` and `Drain`.
* A `while (true)` loop is a function with fuel; the drivers start it with more fuel
  than it can use (`PipelineScore_fuel`, `ModelScore_fuel`).
-/

namespace AutomatonBenchmark

/-- A vocabulary id, `lm::WordIndex`. -/
abbrev WordIndex := Nat

/-- The number of tokens of `std::array<lm::WordIndex, 49806> buff`, `buff.size()`. -/
def buff_size : Nat := 49806

/-- How a run of a driver ends: by returning, by one of the two `UTIL_THROW_IF2`, or,
in the model only, by using up the fuel of the loop. -/
inductive Outcome
  | returned
  | misaligned
  | tooSmall
  | outOfFuel
  deriving DecidableEq, Repr

/-- Modelled from the spec: `util::ReadOrEOF` belongs to the external Token Source and is
not part of this file, so the number of bytes one call hands over is a parameter of the
run.  With `avail` bytes left in the file and `amount` bytes requested, the call returns
`short` bytes fewer than it could, but at least one byte when one is left and requested;
it returns 0 only at the end of the file.  `short = 0` is the read that fills the request
unless the file ends. -/
def ReadOrEOF (avail short amount : Nat) : Nat :=
  min avail amount - min short (min avail amount - 1)

/-- The bytes left in a file of `rest` whole tokens and `tail % w` stray bytes. -/
def bytesLeft (w : Nat) (rest : List WordIndex) (tail : Nat) : Nat :=
  rest.length * w + tail % w

/-! ## PipelineScore -/

/-- What `PipelineScore` does to the pipeline. -/
inductive Event (σ : Type)
  | AppendWords (state : σ) (words : List WordIndex)
  | Drain
  deriving DecidableEq, Repr

/-- A run of `PipelineScore`: how it ends and the pipeline calls it made, in order. -/
structure PipelineRun (σ : Type) where
  outcome : Outcome
  events : List (Event σ)
  deriving DecidableEq, Repr

/-- The inner loop `while (curr != end)` of `PipelineScore` over the tokens still to scan.
`sb` is `sentence_begin - buff.begin()` and `cur` holds the tokens of
`[sentence_begin, curr)`.  The result is the ranges passed to `AppendWords` in call
order, the final `sentence_begin - buff.begin()` and the tokens of
`[sentence_begin, end)`. -/
def scan (kEOS : WordIndex) :
    List WordIndex → Nat → List WordIndex → List (List WordIndex) × Nat × List WordIndex
  | [], sb, cur => ([], sb, cur)
  | x :: xs, sb, cur =>
    if x = kEOS then
      let r := scan kEOS xs (sb + (cur.length + 1)) []
      ((cur ++ [x]) :: r.1, r.2)
    else scan kEOS xs sb (cur ++ [x])

/-- The loop `while (true)` of `PipelineScore` followed by `pipeline.Drain()`, for a
buffer of `cap` tokens.  `sched` gives the shortfall of each read, `rest` the tokens not
yet read, and `overhang` the tokens copied to the front of the buffer. -/
def pipelineLoop {σ : Type} (w : Nat) (kEOS : WordIndex) (cap : Nat) (begin_state : σ)
    (tail : Nat) : Nat → List Nat → List WordIndex → List WordIndex → PipelineRun σ
  | 0, _, _, _ => ⟨Outcome.outOfFuel, []⟩
  | fuel + 1, sched, rest, overhang =>
    let got := ReadOrEOF (bytesLeft w rest tail) (sched.headD 0) ((cap - overhang.length) * w)
    if got = 0 then ⟨Outcome.returned, [Event.Drain]⟩
    else if got % w ≠ 0 then ⟨Outcome.misaligned, []⟩
    else
      let s := scan kEOS (overhang ++ rest.take (got / w)) 0 []
      let appended := s.1.map (Event.AppendWords begin_state)
      if s.2.1 = 0 then ⟨Outcome.tooSmall, appended⟩
      else
        let r := pipelineLoop w kEOS cap begin_state tail fuel sched.tail
          (rest.drop (got / w)) s.2.2
        ⟨r.outcome, appended ++ r.events⟩

/-- The driver `PipelineScore`: after `util::SeekOrThrow(options.fd_in, 0)` the whole file
is ahead, and the overhang is empty. -/
def PipelineScore {σ : Type} (w : Nat) (kEOS : WordIndex) (begin_state : σ)
    (input : List WordIndex) (tail : Nat) (sched : List Nat) : PipelineRun σ :=
  pipelineLoop w kEOS buff_size begin_state tail (input.length + 1) sched input []

/-- The token ranges passed to `AppendWords`, in call order. -/
def appendedRanges {σ : Type} : List (Event σ) → List (List WordIndex)
  | [] => []
  | Event.AppendWords _ ws :: es => ws :: appendedRanges es
  | Event.Drain :: es => appendedRanges es

/-- The number of calls of `Drain`. -/
def drainCount {σ : Type} : List (Event σ) → Nat
  | [] => 0
  | Event.AppendWords _ _ :: es => drainCount es
  | Event.Drain :: es => drainCount es + 1

/-! ## ModelScore -/

/-- Where the pointer `in_state` points, and where `FullScore` writes: `begin_state` or one
of `states[0]`, `states[1]`, `states[2]`. -/
inductive Slot
  | begin
  | s0
  | s1
  | s2
  deriving DecidableEq, Repr

/-- One call `model.FullScore(*in_state, word, states[k])`: the slot `in_state` points to,
the state read through it, the token, the slot written and the state written. -/
structure Call (σ : Type) where
  in_slot : Slot
  in_state : σ
  word : WordIndex
  out_slot : Slot
  out_state : σ
  deriving DecidableEq, Repr

/-- The variables of `ModelScore` that a call reads and writes: the pointer `in_state`
and the array `states[3]`. -/
structure Vars (σ : Type) where
  in_state : Slot
  states0 : σ
  states1 : σ
  states2 : σ
  deriving DecidableEq, Repr

/-- The state `*p` for a pointer `p`. -/
def Vars.deref {σ : Type} (begin_state : σ) (v : Vars σ) : Slot → σ
  | Slot.begin => begin_state
  | Slot.s0 => v.states0
  | Slot.s1 => v.states1
  | Slot.s2 => v.states2

/-- The assignment `states[k] = s`; nothing is ever written through `begin_state`. -/
def Vars.store {σ : Type} (v : Vars σ) (s : σ) : Slot → Vars σ
  | Slot.begin => v
  | Slot.s0 => { v with states0 := s }
  | Slot.s1 => { v with states1 := s }
  | Slot.s2 => { v with states2 := s }

/-- The two statements
`score += model.FullScore(*in_state, x, states[k]).prob;`
`in_state = (x == kEOS) ? begin_state : &states[k];`. -/
def scoreWord {σ : Type} (kEOS : WordIndex) (fullScore : σ → WordIndex → σ) (begin_state : σ)
    (out : Slot) (x : WordIndex) (v : Vars σ) : Call σ × Vars σ :=
  let i := v.deref begin_state v.in_state
  let o := fullScore i x
  (⟨v.in_state, i, x, out, o⟩,
    { v.store o out with in_state := if x = kEOS then Slot.begin else out })

/-- The loop `while (curr != even_end)` of `ModelScore` over an even number of tokens: the
first token of a pair is scored into `states[1]`, the second into `states[0]`. -/
def scorePairs {σ : Type} (kEOS : WordIndex) (fullScore : σ → WordIndex → σ) (begin_state : σ) :
    List WordIndex → Vars σ → List (Call σ) × Vars σ
  | a :: b :: xs, v =>
    let r1 := scoreWord kEOS fullScore begin_state Slot.s1 a v
    let r2 := scoreWord kEOS fullScore begin_state Slot.s0 b r1.2
    let r := scorePairs kEOS fullScore begin_state xs r2.2
    (r1.1 :: r2.1 :: r.1, r.2)
  | _, v => ([], v)

/-- The body of the loop `while (true)` of `ModelScore` after a read of `got` bytes that
put `chunk` at the front of the buffer: the pairs up to `even_end`, which is
`(got / sizeof(lm::WordIndex)) & ~1` tokens in, then, `if (got & 1)`, the token at
`even_end` into `states[2]`.  (When `got` is odd the token count is odd as well, so the
token at `even_end` is the last one of the chunk.) -/
def scoreChunk {σ : Type} (w : Nat) (kEOS : WordIndex) (fullScore : σ → WordIndex → σ)
    (begin_state : σ) (got : Nat) (chunk : List WordIndex) (v : Vars σ) :
    List (Call σ) × Vars σ :=
  let even_end := got / w - got / w % 2
  let r := scorePairs kEOS fullScore begin_state (chunk.take even_end) v
  if got % 2 = 1 then
    match chunk.drop even_end with
    | x :: _ =>
      let r2 := scoreWord kEOS fullScore begin_state Slot.s2 x r.2
      (r.1 ++ [r2.1], r2.2)
    | [] => r
  else r

/-- A run of `ModelScore`: how it ends, the calls of `FullScore` in order, and the byte
counts the reads returned. -/
structure ModelRun (σ : Type) where
  outcome : Outcome
  calls : List (Call σ)
  reads : List Nat
  deriving DecidableEq, Repr

/-- The loop `while (true)` of `ModelScore` for a buffer of `cap` tokens. -/
def modelLoop {σ : Type} (w : Nat) (kEOS : WordIndex) (cap : Nat) (fullScore : σ → WordIndex → σ)
    (begin_state : σ) (tail : Nat) : Nat → List Nat → List WordIndex → Vars σ → ModelRun σ
  | 0, _, _, _ => ⟨Outcome.outOfFuel, [], []⟩
  | fuel + 1, sched, rest, v =>
    let got := ReadOrEOF (bytesLeft w rest tail) (sched.headD 0) (cap * w)
    if got = 0 then ⟨Outcome.returned, [], []⟩
    else if got % w ≠ 0 then ⟨Outcome.misaligned, [], [got]⟩
    else
      let c := scoreChunk w kEOS fullScore begin_state got (rest.take (got / w)) v
      let r := modelLoop w kEOS cap fullScore begin_state tail fuel sched.tail
        (rest.drop (got / w)) c.2
      ⟨r.outcome, c.1 ++ r.calls, got :: r.reads⟩

/-- The driver `ModelScore`: `in_state` starts at `begin_state`; `states0`, `states1` and
`states2` are whatever the uninitialised array holds. -/
def ModelScore {σ : Type} (w : Nat) (kEOS : WordIndex) (fullScore : σ → WordIndex → σ)
    (begin_state states0 states1 states2 : σ) (input : List WordIndex) (tail : Nat)
    (sched : List Nat) : ModelRun σ :=
  modelLoop w kEOS buff_size fullScore begin_state tail (input.length + 1) sched input
    ⟨Slot.begin, states0, states1, states2⟩

/-! ## DispatchFunction -/

/-- The fields of `Config` that `DispatchFunction` reads (`fd_in` is the input file of the
drivers, `model_file` the abstract model). -/
structure Config where
  pipeline_size_start : Int
  pipeline_size_end : Int
  type : String

/-- The conversion of an `int` to `std::size_t` (64 bits). -/
def toSizeT (i : Int) : Nat := (i % 2 ^ 64).toNat

/-- The loop `for (std::size_t pipeline_size = ...; pipeline_size <= ...; ++pipeline_size)`
of `DispatchFunction`: `score p` is how `PipelineScore` ends on the pipeline of pool size
`p`; an error leaves the loop.  The result is how the loop ends and the pool sizes of the
pipelines constructed, in order. -/
def dispatchLoop (score : Nat → Outcome) (end_size : Nat) : Nat → Nat → Outcome × List Nat
  | 0, _ => (Outcome.outOfFuel, [])
  | fuel + 1, pipeline_size =>
    if pipeline_size ≤ end_size then
      match score pipeline_size with
      | Outcome.returned =>
        let r := dispatchLoop score end_size fuel ((pipeline_size + 1) % 2 ^ 64)
        (r.1, pipeline_size :: r.2)
      | o => (o, [pipeline_size])
    else (Outcome.returned, [])

/-- The function `DispatchFunction`: how it ends and the pool sizes of the pipelines it
constructs.  `sched p` is the read schedule met by the pass with pool size `p`. -/
def DispatchFunction {σ : Type} (w : Nat) (kEOS : WordIndex) (fullScore : σ → WordIndex → σ)
    (begin_state states0 states1 states2 : σ) (options : Config) (input : List WordIndex)
    (tail : Nat) (sched : Nat → List Nat) (fuel : Nat) : Outcome × List Nat :=
  if options.type = "probing" then
    ((ModelScore w kEOS fullScore begin_state states0 states1 states2 input tail
      (sched 0)).outcome, [])
  else if options.type = "pipeline" then
    dispatchLoop
      (fun p => (PipelineScore w kEOS begin_state input tail (sched p)).outcome)
      (toSizeT options.pipeline_size_end) fuel (toSizeT options.pipeline_size_start)
  else (Outcome.returned, [])

/-! ## CheckEqual -/

/-- A sentence: tokens other than `kEOS`, then `kEOS`. -/
def IsSentence (kEOS : WordIndex) (s : List WordIndex) : Prop :=
  ∃ body, s = body ++ [kEOS] ∧ kEOS ∉ body

/-- The input cut after its last `kEOS`: the tokens after the last `kEOS` are dropped, and
nothing is left of an input without `kEOS`. -/
def cutAfterLastEOS (kEOS : WordIndex) (input : List WordIndex) : List WordIndex :=
  input.rdropWhile (fun t => t != kEOS)

/-- The corpus `ModelScore` scores: each token given to `FullScore`, with whether the call
read its context through `begin_state`. -/
def scoredCorpus {σ : Type} (calls : List (Call σ)) : List (WordIndex × Bool) :=
  calls.map (fun c => (c.word, decide (c.in_slot = Slot.begin)))

/-- The tokens of one range passed to `AppendWords`: the first one is scored from the begin
state, the others are not. -/
def markRange : List WordIndex → List (WordIndex × Bool)
  | [] => []
  | x :: xs => (x, true) :: xs.map (fun t => (t, false))

/-- The corpus `PipelineScore` hands to the pipeline: the ranges passed to `AppendWords`,
concatenated, the first token of each range marked. -/
def appendedCorpus (ranges : List (List WordIndex)) : List (WordIndex × Bool) :=
  (ranges.map markRange).flatten

/-- A token stream with, for each token, whether a sentence starts there: at the front when
`first` holds, and after each `kEOS`. -/
def markStream (kEOS : WordIndex) : Bool → List WordIndex → List (WordIndex × Bool)
  | _, [] => []
  | first, x :: xs => (x, first) :: markStream kEOS (decide (x = kEOS)) xs

/-- The rule of the contexts of `ModelScore`: the calls `cs` are chained from the slot `sl`
holding the state `st` when the first call reads `st` through `sl`, and the calls after it
are chained from `begin_state` if its token is `kEOS` and from the slot and state it wrote
otherwise. -/
def chainedFrom {σ : Type} (kEOS : WordIndex) (begin_state : σ) :
    Slot → σ → List (Call σ) → Prop
  | _, _, [] => True
  | sl, st, c :: cs =>
    c.in_slot = sl ∧ c.in_state = st ∧
      chainedFrom kEOS begin_state (if c.word = kEOS then Slot.begin else c.out_slot)
        (if c.word = kEOS then begin_state else c.out_state) cs

/-! ## Reads and the loop of `PipelineScore` -/

theorem ReadOrEOF_le_avail (a s m : Nat) : ReadOrEOF a s m ≤ a := by
  unfold ReadOrEOF; omega

theorem ReadOrEOF_le_amount (a s m : Nat) : ReadOrEOF a s m ≤ m := by
  unfold ReadOrEOF; omega

theorem ReadOrEOF_eq_zero (a s m : Nat) : ReadOrEOF a s m = 0 ↔ a = 0 ∨ m = 0 := by
  unfold ReadOrEOF; omega

theorem scan_spec (kEOS : WordIndex) : ∀ (xs : List WordIndex) (sb : Nat) (cur : List WordIndex),
    kEOS ∉ cur →
    (scan kEOS xs sb cur).1.flatten ++ (scan kEOS xs sb cur).2.2 = cur ++ xs ∧
    kEOS ∉ (scan kEOS xs sb cur).2.2 ∧
    (scan kEOS xs sb cur).2.1 = sb + (scan kEOS xs sb cur).1.flatten.length ∧
    ∀ s ∈ (scan kEOS xs sb cur).1, IsSentence kEOS s := by
  intro xs
  induction xs with
  | nil => intro sb cur h; simp [scan, h]
  | cons x xs ih =>
    intro sb cur h
    by_cases hx : x = kEOS
    · obtain ⟨h1, h2, h3, h4⟩ := ih (sb + (cur.length + 1)) [] (by simp)
      simp only [scan, hx, if_true]
      refine ⟨?_, h2, ?_, ?_⟩
      · simp only [List.flatten_cons, List.append_assoc, h1]; simp
      · rw [h3]; simp; omega
      · intro s hs
        rcases List.mem_cons.1 hs with rfl | hs
        · exact ⟨cur, rfl, h⟩
        · exact h4 s hs
    · have hc : kEOS ∉ cur ++ [x] := by
        simp [h]; exact fun e => hx e.symm
      obtain ⟨h1, h2, h3, h4⟩ := ih sb (cur ++ [x]) hc
      simp only [scan, hx, if_false]
      exact ⟨by rw [h1]; simp, h2, h3, h4⟩


theorem read_facts {w : Nat} (hw : 0 < w) (rest : List WordIndex) (tail short amount : Nat)
    (h0 : ReadOrEOF (bytesLeft w rest tail) short amount ≠ 0)
    (hm : ReadOrEOF (bytesLeft w rest tail) short amount % w = 0) :
    1 ≤ ReadOrEOF (bytesLeft w rest tail) short amount / w ∧
    ReadOrEOF (bytesLeft w rest tail) short amount / w ≤ rest.length ∧
    ReadOrEOF (bytesLeft w rest tail) short amount / w * w ≤ amount := by
  have h1 := ReadOrEOF_le_avail (bytesLeft w rest tail) short amount
  have h2 := ReadOrEOF_le_amount (bytesLeft w rest tail) short amount
  generalize ReadOrEOF (bytesLeft w rest tail) short amount = g at *
  have hg : g / w * w = g := Nat.div_mul_cancel (Nat.dvd_of_mod_eq_zero hm)
  have ht : tail % w < w := Nat.mod_lt _ hw
  unfold bytesLeft at h1
  refine ⟨?_, ?_, by omega⟩
  · rcases Nat.eq_zero_or_pos (g / w) with h | h
    · rw [h] at hg; omega
    · exact h
  · have : g / w * w < (rest.length + 1) * w := by
      rw [hg, Nat.add_mul]; omega
    have := Nat.lt_of_mul_lt_mul_right this
    omega

/-- What every run of the loop of `PipelineScore` does, whatever the reads. -/
theorem pipelineLoop_inv {σ : Type} {w : Nat} (hw : 0 < w) (kEOS : WordIndex) (cap : Nat)
    (begin_state : σ) (tail : Nat) :
    ∀ (fuel : Nat) (sched : List Nat) (rest overhang : List WordIndex),
      kEOS ∉ overhang → overhang.length < cap → rest.length < fuel →
      ∃ ranges : List (List WordIndex),
        (pipelineLoop w kEOS cap begin_state tail fuel sched rest overhang).events =
          ranges.map (Event.AppendWords begin_state) ++
            (if (pipelineLoop w kEOS cap begin_state tail fuel sched rest overhang).outcome
                = Outcome.returned then [Event.Drain] else []) ∧
        (pipelineLoop w kEOS cap begin_state tail fuel sched rest overhang).outcome
          ≠ Outcome.outOfFuel ∧
        (∀ s ∈ ranges, IsSentence kEOS s ∧ s.length ≤ cap) ∧
        ∃ t, ranges.flatten ++ t = overhang ++ rest ∧
          ((pipelineLoop w kEOS cap begin_state tail fuel sched rest overhang).outcome
            = Outcome.returned → kEOS ∉ t ∧ tail % w = 0) := by
  intro fuel
  induction fuel with
  | zero => intro sched rest overhang _ _ h; simp at h
  | succ fuel ih =>
    intro sched rest overhang hoh hcap hfuel
    simp only [pipelineLoop]
    generalize hg : ReadOrEOF (bytesLeft w rest tail) (sched.headD 0)
      ((cap - overhang.length) * w) = got
    by_cases h0 : got = 0
    · refine ⟨[], ?_⟩
      simp only [h0, if_true]
      have : bytesLeft w rest tail = 0 := by
        rw [← hg, ReadOrEOF_eq_zero] at h0
        rcases h0 with h | h
        · exact h
        · have : 0 < (cap - overhang.length) * w := Nat.mul_pos (by omega) hw
          omega
      unfold bytesLeft at this
      have hr : rest = [] := by
        cases rest with
        | nil => rfl
        | cons a l =>
          simp [Nat.add_mul] at this
          omega
      subst hr
      refine ⟨by simp, by simp, by simp, overhang, by simp, fun _ => ⟨hoh, ?_⟩⟩
      simpa using this
    · by_cases hm : got % w = 0
      · simp only [h0, hm, if_false, ne_eq, not_true_eq_false]
        obtain ⟨f1, f2, f3⟩ := read_facts hw rest tail (sched.headD 0)
          ((cap - overhang.length) * w) (by rw [hg]; exact h0) (by rw [hg]; exact hm)
        rw [hg] at f1 f2 f3
        have f4 : got / w ≤ cap - overhang.length := Nat.le_of_mul_le_mul_right f3 hw
        obtain ⟨s1, s2, s3, s4⟩ := scan_spec kEOS (overhang ++ rest.take (got / w)) 0 [] (by simp)
        generalize scan kEOS (overhang ++ rest.take (got / w)) 0 [] = sc at *
        have hlen : sc.1.flatten.length + sc.2.2.length = overhang.length + got / w := by
          have := congrArg List.length s1
          simp only [List.length_append, List.length_take, List.nil_append] at this
          rw [Nat.min_eq_left f2] at this
          omega
        have hsent : ∀ s ∈ sc.1, IsSentence kEOS s ∧ s.length ≤ cap := by
          intro s hs
          refine ⟨s4 s hs, ?_⟩
          have : s.length ≤ sc.1.flatten.length := by
            obtain ⟨a, b, hab⟩ := List.append_of_mem hs
            rw [hab]
            simp only [List.flatten_append, List.flatten_cons, List.length_append]
            omega
          omega
        by_cases hsb : sc.2.1 = 0
        · refine ⟨sc.1, ?_⟩
          simp only [hsb, if_true]
          refine ⟨by simp, by simp, hsent, sc.2.2 ++ rest.drop (got / w), ?_, by simp⟩
          rw [← List.append_assoc, s1]; simp
        · simp only [hsb, if_false]
          have hoh2 : sc.2.2.length < cap := by omega
          obtain ⟨ranges, r1, r2, r3, t, r4, r5⟩ := ih sched.tail (rest.drop (got / w)) sc.2.2
            s2 hoh2 (by simp; omega)
          refine ⟨sc.1 ++ ranges, ?_, r2, ?_, t, ?_, r5⟩
          · rw [r1]; simp
          · intro s hs
            rcases List.mem_append.1 hs with hs | hs
            · exact hsent s hs
            · exact r3 s hs
          · rw [List.flatten_append, List.append_assoc, r4, ← List.append_assoc, s1]; simp
      · refine ⟨[], ?_⟩
        simp only [h0, hm, if_false, if_true, ne_eq, not_false_eq_true]
        exact ⟨by simp, by simp, by simp, overhang ++ rest, by simp, by simp⟩



theorem appendedRanges_append {σ : Type} (es fs : List (Event σ)) :
    appendedRanges (es ++ fs) = appendedRanges es ++ appendedRanges fs := by
  induction es with
  | nil => rfl
  | cons e es ih => cases e <;> simp [appendedRanges, ih]

theorem appendedRanges_map {σ : Type} (st : σ) (ranges : List (List WordIndex)) :
    appendedRanges (ranges.map (Event.AppendWords st)) = ranges := by
  induction ranges with
  | nil => rfl
  | cons r rs ih => simp [appendedRanges, ih]

theorem appendedRanges_run {σ : Type} (st : σ) (ranges : List (List WordIndex)) (b : Prop)
    [Decidable b] :
    appendedRanges (ranges.map (Event.AppendWords st) ++ if b then [Event.Drain] else [])
      = ranges := by
  rw [appendedRanges_append, appendedRanges_map]
  split <;> simp [appendedRanges]

theorem drainCount_append {σ : Type} (es fs : List (Event σ)) :
    drainCount (es ++ fs) = drainCount es + drainCount fs := by
  induction es with
  | nil => simp [drainCount]
  | cons e es ih => cases e <;> simp [drainCount, ih]; omega

theorem drainCount_map {σ : Type} (st : σ) (ranges : List (List WordIndex)) :
    drainCount (ranges.map (Event.AppendWords st)) = 0 := by
  induction ranges with
  | nil => rfl
  | cons r rs ih => simp [drainCount, ih]

/-- The shape of every run of the loop of `PipelineScore`, whatever the fuel, the reads and
the buffer: calls of `AppendWords` with `begin_state` and a sentence each, then `Drain` if
and only if the run returns. -/
theorem pipelineLoop_events {σ : Type} (w : Nat) (kEOS : WordIndex) (cap : Nat)
    (begin_state : σ) (tail : Nat) :
    ∀ (fuel : Nat) (sched : List Nat) (rest overhang : List WordIndex),
      ∃ ranges : List (List WordIndex),
        (pipelineLoop w kEOS cap begin_state tail fuel sched rest overhang).events =
          ranges.map (Event.AppendWords begin_state) ++
            (if (pipelineLoop w kEOS cap begin_state tail fuel sched rest overhang).outcome
                = Outcome.returned then [Event.Drain] else []) ∧
        ∀ s ∈ ranges, IsSentence kEOS s := by
  intro fuel
  induction fuel with
  | zero => intro sched rest overhang; exact ⟨[], by simp [pipelineLoop], by simp⟩
  | succ fuel ih =>
    intro sched rest overhang
    simp only [pipelineLoop]
    generalize ReadOrEOF (bytesLeft w rest tail) (sched.headD 0)
      ((cap - overhang.length) * w) = got
    by_cases h0 : got = 0
    · exact ⟨[], by simp [h0], by simp⟩
    · by_cases hm : got % w = 0
      · simp only [h0, hm, if_false, ne_eq, not_true_eq_false]
        obtain ⟨-, -, -, s4⟩ := scan_spec kEOS (overhang ++ rest.take (got / w)) 0 [] (by simp)
        generalize scan kEOS (overhang ++ rest.take (got / w)) 0 [] = sc at *
        by_cases hsb : sc.2.1 = 0
        · exact ⟨sc.1, by simp [hsb], s4⟩
        · simp only [hsb, if_false]
          obtain ⟨ranges, r1, r2⟩ := ih sched.tail (rest.drop (got / w)) sc.2.2
          refine ⟨sc.1 ++ ranges, ?_, ?_⟩
          · rw [r1]; simp
          · intro s hs
            rcases List.mem_append.1 hs with hs | hs
            · exact s4 s hs
            · exact r2 s hs
      · exact ⟨[], by simp [h0, hm], by simp⟩

theorem IsSentence.shape {kEOS : WordIndex} {s : List WordIndex} (h : IsSentence kEOS s) :
    s ≠ [] ∧ s.getLast? = some kEOS ∧ kEOS ∉ s.dropLast := by
  obtain ⟨body, rfl, hb⟩ := h
  refine ⟨by simp, by simp, ?_⟩
  rw [List.dropLast_concat]; exact hb


theorem flatten_sentences_end {kEOS : WordIndex} {ranges : List (List WordIndex)}
    (h : ∀ s ∈ ranges, IsSentence kEOS s) :
    ranges.flatten = [] ∨ ∃ a, ranges.flatten = a ++ [kEOS] := by
  rcases List.eq_nil_or_concat ranges with rfl | ⟨rs, s, rfl⟩
  · left; rfl
  · right
    obtain ⟨body, rfl, -⟩ := h s (by simp)
    exact ⟨rs.flatten ++ body, by simp⟩

theorem cutAfterLastEOS_append {kEOS : WordIndex} (a : List WordIndex) :
    ∀ t : List WordIndex, kEOS ∉ t → cutAfterLastEOS kEOS (a ++ t) = cutAfterLastEOS kEOS a := by
  intro t
  induction t using List.reverseRecOn with
  | nil => intro _; simp
  | append_singleton t x ih =>
    intro h
    have hx : x ≠ kEOS := fun e => h (by simp [e])
    have ht : kEOS ∉ t := fun e => h (by simp [e])
    unfold cutAfterLastEOS at *
    rw [← List.append_assoc, List.rdropWhile_concat]
    simp [hx, ih ht]

theorem cutAfterLastEOS_fixed {kEOS : WordIndex} {a : List WordIndex}
    (h : a = [] ∨ ∃ b, a = b ++ [kEOS]) : cutAfterLastEOS kEOS a = a := by
  rcases h with rfl | ⟨b, rfl⟩
  · rfl
  · unfold cutAfterLastEOS
    rw [List.rdropWhile_concat]; simp

theorem cut_of_ranges {kEOS : WordIndex} {ranges : List (List WordIndex)}
    {t input : List WordIndex} (h : ∀ s ∈ ranges, IsSentence kEOS s)
    (ht : kEOS ∉ t) (he : ranges.flatten ++ t = input) :
    ranges.flatten = cutAfterLastEOS kEOS input := by
  rw [← he, cutAfterLastEOS_append _ _ ht, cutAfterLastEOS_fixed (flatten_sentences_end h)]

/-- Two ways to cut a list at its first `k` agree. -/
theorem first_split_unique {k : WordIndex} {b c x y : List WordIndex}
    (hb : k ∉ b) (hc : k ∉ c) (h : b ++ k :: x = c ++ k :: y) : b = c ∧ x = y := by
  induction b generalizing c with
  | nil =>
    cases c with
    | nil => simpa using h
    | cons d c =>
      simp at h
      exact absurd h.1 (fun e => hc (by simp [e]))
  | cons a b ih =>
    cases c with
    | nil =>
      simp at h
      exact absurd h.1 (fun e => hb (by simp [e]))
    | cons d c =>
      simp at h
      obtain ⟨h1, h2⟩ := h
      have := @ih c (fun e => hb (by simp [e])) (fun e => hc (by simp [e])) h2
      exact ⟨by rw [h1, this.1], this.2⟩

/-- Sentences that fit the buffer, laid along an input, stop before a sentence that does
not fit. -/
theorem ranges_stop_before_long {kEOS : WordIndex} {cap : Nat} {body post : List WordIndex}
    (hbody : kEOS ∉ body) (hlong : cap ≤ body.length) :
    ∀ (ranges : List (List WordIndex)) (pre t : List WordIndex),
      (∀ s ∈ ranges, IsSentence kEOS s ∧ s.length ≤ cap) →
      (pre = [] ∨ pre.getLast? = some kEOS) →
      ranges.flatten ++ t = pre ++ (body ++ kEOS :: post) →
      ∃ u, ranges.flatten ++ u = pre := by
  intro ranges
  induction ranges with
  | nil => intro pre t _ _ _; exact ⟨pre, by simp⟩
  | cons s rs ih =>
    intro pre t hs hpre he
    obtain ⟨⟨b, rfl, hb⟩, hlen⟩ := hs _ (List.mem_cons_self _ _)
    have hmem : kEOS ∈ pre := by
      rcases hpre with rfl | hl
      · exfalso
        simp only [List.flatten_cons, List.append_assoc, List.singleton_append,
          List.nil_append] at he
        have := (first_split_unique hb hbody he).1
        subst this
        simp at hlen
        omega
      · exact List.mem_of_getLast?_eq_some hl
    obtain ⟨c, y, rfl, hc⟩ := List.eq_append_cons_of_mem hmem
    simp only [List.flatten_cons, List.append_assoc, List.singleton_append,
      List.cons_append] at he
    obtain ⟨rfl, h2⟩ := first_split_unique hb hc he
    have hy : y = [] ∨ y.getLast? = some kEOS := by
      rcases hpre with h | h
      · simp at h
      · cases y with
        | nil => left; rfl
        | cons d y =>
          right
          rw [List.getLast?_append, List.getLast?_cons_cons] at h
          cases hh : (d :: y).getLast? with
          | none => simp at hh
          | some z => rw [hh] at h; simpa using h
    obtain ⟨u, hu⟩ := ih y t (fun s hs2 => hs s (List.mem_cons_of_mem _ hs2)) hy h2
    exact ⟨u, by simp [hu]⟩


theorem scan_noEOS (kEOS : WordIndex) :
    ∀ (xs : List WordIndex) (sb : Nat) (cur : List WordIndex), kEOS ∉ xs →
      scan kEOS xs sb cur = ([], sb, cur ++ xs) := by
  intro xs
  induction xs with
  | nil => intro sb cur _; simp [scan]
  | cons x xs ih =>
    intro sb cur h
    have hx : x ≠ kEOS := fun e => h (by simp [e])
    simp only [scan, hx, if_false]
    rw [ih sb (cur ++ [x]) (fun e => h (by simp [e]))]
    simp

theorem scan_found (kEOS : WordIndex) {xs : List WordIndex} (h : kEOS ∈ xs) :
    (scan kEOS xs 0 []).2.1 ≠ 0 := by
  obtain ⟨s1, s2, s3, -⟩ := scan_spec kEOS xs 0 [] (by simp)
  intro h0
  rw [s3] at h0
  have hnil : (scan kEOS xs 0 []).1.flatten = [] := List.length_eq_zero.1 (by omega)
  rw [hnil] at s1
  simp only [List.nil_append] at s1
  rw [s1] at s2
  exact s2 h

/-- One turn of the loop of `PipelineScore` that reads `n` tokens and finds a sentence. -/
theorem pipelineLoop_turn {σ : Type} {w : Nat} (hw : 0 < w) (kEOS : WordIndex) (cap : Nat)
    (begin_state : σ) (tail fuel : Nat) (sched : List Nat) (rest overhang : List WordIndex)
    (n : Nat) (hn : 0 < n)
    (hgot : ReadOrEOF (bytesLeft w rest tail) (sched.headD 0) ((cap - overhang.length) * w)
      = n * w)
    (hsb : (scan kEOS (overhang ++ rest.take n) 0 []).2.1 ≠ 0) :
    pipelineLoop w kEOS cap begin_state tail (fuel + 1) sched rest overhang =
      ⟨(pipelineLoop w kEOS cap begin_state tail fuel sched.tail (rest.drop n)
          (scan kEOS (overhang ++ rest.take n) 0 []).2.2).outcome,
        (scan kEOS (overhang ++ rest.take n) 0 []).1.map (Event.AppendWords begin_state) ++
        (pipelineLoop w kEOS cap begin_state tail fuel sched.tail (rest.drop n)
          (scan kEOS (overhang ++ rest.take n) 0 []).2.2).events⟩ := by
  have h0 : n * w ≠ 0 := Nat.mul_ne_zero (by omega) (by omega)
  simp only [pipelineLoop, hgot, h0, if_false, Nat.mul_mod_left, ne_eq, not_true_eq_false,
    Nat.mul_div_cancel _ hw, hsb]

/-- One turn of the loop of `PipelineScore` that reads `n` tokens and finds no sentence. -/
theorem pipelineLoop_stuck {σ : Type} {w : Nat} (hw : 0 < w) (kEOS : WordIndex) (cap : Nat)
    (begin_state : σ) (tail fuel : Nat) (sched : List Nat) (rest overhang : List WordIndex)
    (n : Nat) (hn : 0 < n)
    (hgot : ReadOrEOF (bytesLeft w rest tail) (sched.headD 0) ((cap - overhang.length) * w)
      = n * w)
    (hno : kEOS ∉ overhang ++ rest.take n) :
    pipelineLoop w kEOS cap begin_state tail (fuel + 1) sched rest overhang =
      ⟨Outcome.tooSmall, []⟩ := by
  have h0 : n * w ≠ 0 := Nat.mul_ne_zero (by omega) (by omega)
  simp only [pipelineLoop, hgot, h0, if_false, Nat.mul_mod_left, ne_eq, not_true_eq_false,
    Nat.mul_div_cancel _ hw, scan_noEOS kEOS _ 0 [] hno, if_true, List.map_nil]

/-- A read that fills the request: the whole-token file holds at least `n` more tokens. -/
theorem ReadOrEOF_fill {w : Nat} (rest : List WordIndex) (tail n : Nat)
    (h : n ≤ rest.length) : ReadOrEOF (bytesLeft w rest tail) 0 (n * w) = n * w := by
  have : n * w ≤ rest.length * w := Nat.mul_le_mul_right w h
  unfold ReadOrEOF bytesLeft
  omega

/-- A read that meets the end of a file of whole tokens. -/
theorem ReadOrEOF_rest {w : Nat} (rest : List WordIndex) (tail n : Nat) (ht : tail % w = 0)
    (h : rest.length ≤ n) :
    ReadOrEOF (bytesLeft w rest tail) 0 (n * w) = rest.length * w := by
  have : rest.length * w ≤ n * w := Nat.mul_le_mul_right w h
  unfold ReadOrEOF bytesLeft
  omega

theorem pipelineLoop_second_long_succ {σ : Type} {w : Nat} (hw : 0 < w) {kEOS x : WordIndex}
    (hx : x ≠ kEOS) (c : Nat) (begin_state : σ) (tail fuel : Nat) (hf : 2 ≤ fuel) :
    pipelineLoop w kEOS (c + 1) begin_state tail fuel [] (kEOS :: List.replicate (c + 1) x) []
      = ⟨Outcome.tooSmall, [Event.AppendWords begin_state [kEOS]]⟩ := by
  obtain ⟨f, rfl⟩ : ∃ f, fuel = f + 1 + 1 := ⟨fuel - 2, by omega⟩
  have hno : ∀ n, kEOS ∉ List.replicate n x := by
    intro n h
    exact hx (List.eq_of_mem_replicate h).symm
  have htake : (kEOS :: List.replicate (c + 1) x).take (c + 1) = kEOS :: List.replicate c x := by
    simp [List.take_replicate]
  have hdrop : (kEOS :: List.replicate (c + 1) x).drop (c + 1) = [x] := by
    simp [List.drop_replicate]
  have hscan : scan kEOS ([] ++ (kEOS :: List.replicate (c + 1) x).take (c + 1)) 0 []
      = ([[kEOS]], 1, List.replicate c x) := by
    rw [htake]
    simp [scan, scan_noEOS kEOS _ _ _ (hno c)]
  rw [pipelineLoop_turn hw kEOS (c + 1) begin_state tail (f + 1) []
    (kEOS :: List.replicate (c + 1) x) [] (c + 1) (by omega)
    (by simpa using ReadOrEOF_fill (kEOS :: List.replicate (c + 1) x) tail (c + 1) (by simp))
    (by rw [hscan]; simp)]
  rw [hscan, hdrop]
  rw [pipelineLoop_stuck hw kEOS (c + 1) begin_state tail f _ [x] (List.replicate c x) 1
    (by omega) ?_ ?_]
  · simp
  · have := @ReadOrEOF_fill w [x] tail 1 (by simp)
    simpa using this
  · simp only [List.take_succ_cons, List.take_zero]
    intro h
    rcases List.mem_append.1 h with h | h
    · exact hno c h
    · exact hx (List.mem_singleton.1 h).symm

/-- With reads that fill the request, the input of one `kEOS` and then `cap` other tokens,
for a buffer of `cap` tokens: the first sentence is appended, then the loop stops with
"Buffer is too small". -/
theorem pipelineLoop_second_long {σ : Type} {w : Nat} (hw : 0 < w) {kEOS x : WordIndex}
    (hx : x ≠ kEOS) {cap : Nat} (hcap : 0 < cap) (begin_state : σ) (tail fuel : Nat)
    (hf : 2 ≤ fuel) :
    pipelineLoop w kEOS cap begin_state tail fuel [] (kEOS :: List.replicate cap x) []
      = ⟨Outcome.tooSmall, [Event.AppendWords begin_state [kEOS]]⟩ := by
  obtain ⟨c, rfl⟩ : ∃ c, cap = c + 1 := ⟨cap - 1, by omega⟩
  exact pipelineLoop_second_long_succ hw hx c begin_state tail fuel hf

theorem getLast?_of_append {a u : List WordIndex} {k : WordIndex}
    (h : (a ++ u).getLast? = some k) (hu : u ≠ []) : u.getLast? = some k := by
  rw [List.getLast?_append] at h
  cases hh : u.getLast? with
  | none => exact absurd (List.getLast?_eq_none_iff.1 hh) hu
  | some z => rw [hh] at h; simpa using h

theorem getLast?_drop_of_ne_nil {l : List WordIndex} {n : Nat} {k : WordIndex}
    (h : l.getLast? = some k) (hd : l.drop n ≠ []) : (l.drop n).getLast? = some k := by
  rw [← List.take_append_drop n l] at h
  exact getLast?_of_append h hd

/-- With reads that fill the request, a file that holds a sentence too long for the buffer
never stops the loop of `PipelineScore` at the size check, stray bytes at the end of the
file or not: the loop stops before it reads the end of the file. -/
theorem pipelineLoop_long_aligned {σ : Type} {w : Nat} (hw : 0 < w) (kEOS : WordIndex)
    (cap : Nat) (begin_state : σ) (tail : Nat) {body post : List WordIndex}
    (hbody : kEOS ∉ body) (hlong : cap ≤ body.length) :
    ∀ (fuel : Nat) (rest overhang p : List WordIndex),
      overhang ++ rest = p ++ (body ++ kEOS :: post) →
      (p = [] ∨ p.getLast? = some kEOS) → overhang.length < cap →
      (pipelineLoop w kEOS cap begin_state tail fuel [] rest overhang).outcome
        ≠ Outcome.misaligned := by
  intro fuel
  induction fuel with
  | zero => intro rest overhang p _ _ _; simp [pipelineLoop]
  | succ fuel ih =>
    intro rest overhang p heq hp hoh
    have hlen : overhang.length + rest.length = p.length + (body.length + (post.length + 1)) := by
      have := congrArg List.length heq
      simpa using this
    have hgot : ReadOrEOF (bytesLeft w rest tail) (([] : List Nat).headD 0)
        ((cap - overhang.length) * w) = (cap - overhang.length) * w :=
      ReadOrEOF_fill rest tail _ (by omega)
    by_cases hk : kEOS ∈ overhang ++ rest.take (cap - overhang.length)
    · obtain ⟨s1, -, s3, s4⟩ := scan_spec kEOS (overhang ++ rest.take (cap - overhang.length))
        0 [] (by simp)
      have hfound := scan_found kEOS hk
      rw [pipelineLoop_turn hw kEOS cap begin_state tail fuel [] rest overhang
        (cap - overhang.length) (by omega) hgot hfound]
      simp only [List.tail_nil]
      generalize scan kEOS (overhang ++ rest.take (cap - overhang.length)) 0 [] = sc at *
      simp only [List.nil_append] at s1
      have hl2 : sc.1.flatten.length + sc.2.2.length = cap := by
        have := congrArg List.length s1
        simp only [List.length_append, List.length_take] at this
        omega
      have hsent : ∀ s ∈ sc.1, IsSentence kEOS s ∧ s.length ≤ cap := by
        intro s hs
        refine ⟨s4 s hs, ?_⟩
        obtain ⟨a, b, hab⟩ := List.append_of_mem hs
        have : s.length ≤ sc.1.flatten.length := by
          rw [hab]
          simp only [List.flatten_append, List.flatten_cons, List.length_append]
          omega
        omega
      have hall : sc.1.flatten ++ (sc.2.2 ++ rest.drop (cap - overhang.length))
          = p ++ (body ++ kEOS :: post) := by
        rw [← List.append_assoc, s1, List.append_assoc, List.take_append_drop, heq]
      obtain ⟨u, hu⟩ := ranges_stop_before_long hbody hlong sc.1 p _ hsent hp hall
      apply ih (rest.drop (cap - overhang.length)) sc.2.2 u
      · rw [← hu, List.append_assoc] at hall
        exact List.append_cancel_left hall
      · by_cases hun : u = []
        · exact Or.inl hun
        · rcases hp with h | h
          · rw [h] at hu
            exact absurd (List.append_eq_nil.1 hu).2 hun
          · rw [← hu] at h
            exact Or.inr (getLast?_of_append h hun)
      · omega
    · rw [pipelineLoop_stuck hw kEOS cap begin_state tail fuel [] rest overhang
        (cap - overhang.length) (by omega) hgot hk]
      simp

/-- With reads that fill the request, a file of whole tokens that ends with `kEOS` and has
fewer than `cap` tokens in a row without `kEOS` is read to its end. -/
theorem pipelineLoop_full_reads {σ : Type} {w : Nat} (hw : 0 < w) (kEOS : WordIndex)
    (cap : Nat) (begin_state : σ) (tail : Nat) (ht : tail % w = 0) :
    ∀ (fuel : Nat) (rest overhang : List WordIndex),
      kEOS ∉ overhang → rest.length < fuel →
      (rest = [] ∨ rest.getLast? = some kEOS) →
      (∀ l, l <:+: overhang ++ rest → kEOS ∉ l → l.length < cap) →
      (pipelineLoop w kEOS cap begin_state tail fuel [] rest overhang).outcome
        = Outcome.returned := by
  intro fuel
  induction fuel with
  | zero => intro rest overhang _ h; simp at h
  | succ fuel ih =>
    intro rest overhang hoh hfuel hend hruns
    by_cases hr : rest = []
    · subst hr
      simp [pipelineLoop, ReadOrEOF, bytesLeft, ht]
    · have hlast : rest.getLast? = some kEOS := hend.resolve_left hr
      have hohlen : overhang.length < cap := hruns overhang (List.infix_append' [] overhang rest) hoh
      have hrlen : 0 < rest.length := List.length_pos.2 hr
      obtain ⟨n, hn, hnr, hgot, hfound⟩ : ∃ n, 0 < n ∧ n ≤ rest.length ∧
          ReadOrEOF (bytesLeft w rest tail) 0 ((cap - overhang.length) * w) = n * w ∧
          kEOS ∈ overhang ++ rest.take n := by
        by_cases hc : rest.length ≤ cap - overhang.length
        · refine ⟨rest.length, hrlen, le_refl _, ReadOrEOF_rest rest tail _ ht hc, ?_⟩
          rw [List.take_length]
          exact List.mem_append_right _ (List.mem_of_getLast?_eq_some hlast)
        · refine ⟨cap - overhang.length, by omega, by omega,
            ReadOrEOF_fill rest tail _ (by omega), ?_⟩
          by_contra hno
          have hinf : overhang ++ rest.take (cap - overhang.length) <:+: overhang ++ rest := by
            refine ⟨[], rest.drop (cap - overhang.length), ?_⟩
            simp
          have := hruns _ hinf hno
          simp only [List.length_append, List.length_take] at this
          omega
      obtain ⟨s1, s2, -, -⟩ := scan_spec kEOS (overhang ++ rest.take n) 0 [] (by simp)
      rw [pipelineLoop_turn hw kEOS cap begin_state tail fuel [] rest overhang n hn
        (by simpa using hgot) (scan_found kEOS hfound)]
      simp only [List.tail_nil]
      apply ih
      · exact s2
      · simp only [List.length_drop]; omega
      · by_cases hd : rest.drop n = []
        · left; exact hd
        · right; exact getLast?_drop_of_ne_nil hlast hd
      · intro l hl hk
        apply hruns l _ hk
        refine List.IsInfix.trans hl ⟨(scan kEOS (overhang ++ rest.take n) 0 []).1.flatten, [], ?_⟩
        simp only [List.nil_append] at s1
        rw [List.append_nil, ← List.append_assoc, s1, List.append_assoc,
          List.take_append_drop]

theorem buff_size_pos : 0 < buff_size := by decide

/-- The fuel `PipelineScore` gives its loop is never used up: every run returns or raises. -/
theorem PipelineScore_fuel {σ : Type} {w : Nat} (hw : 0 < w) (kEOS : WordIndex)
    (begin_state : σ) (input : List WordIndex) (tail : Nat) (sched : List Nat) :
    (PipelineScore w kEOS begin_state input tail sched).outcome ≠ Outcome.outOfFuel := by
  obtain ⟨_, -, h, -⟩ := pipelineLoop_inv hw kEOS buff_size begin_state tail
    (input.length + 1) sched input [] (by simp) buff_size_pos (by simp)
  exact h

/-- C2: every call `PipelineScore` makes to `AppendWords` passes the begin-sentence state of
the model and a non-empty range of tokens whose last token is the end-of-sentence token
and none of whose other tokens is. -/
theorem C2_appendWords_sentence {σ : Type} (w : Nat) (kEOS : WordIndex) (begin_state : σ)
    (input : List WordIndex) (tail : Nat) (sched : List Nat) (st : σ) (ws : List WordIndex)
    (h : Event.AppendWords st ws ∈ (PipelineScore w kEOS begin_state input tail sched).events) :
    st = begin_state ∧ ws ≠ [] ∧ ws.getLast? = some kEOS ∧ kEOS ∉ ws.dropLast := by
  unfold PipelineScore at h
  obtain ⟨ranges, he, hs⟩ := pipelineLoop_events w kEOS buff_size begin_state tail
    (input.length + 1) sched input []
  rw [he] at h
  rcases List.mem_append.1 h with h | h
  · obtain ⟨r, hr, heq⟩ := List.mem_map.1 h
    injection heq with h1 h2
    subst h1 h2
    exact ⟨rfl, (hs _ hr).shape⟩
  · split at h <;> simp at h

/-- The witness of C2: the file `5 7 2`, with 2 for the end of sentence. -/
theorem C2_appendWords_sentence_witness :
    Event.AppendWords 0 [5, 7, 2] ∈ (PipelineScore 4 2 (0 : Nat) [5, 7, 2] 0 []).events ∧
    ((0 : Nat) = 0 ∧ [5, 7, 2] ≠ [] ∧ [5, 7, 2].getLast? = some 2 ∧ 2 ∉ [5, 7, 2].dropLast) :=
  ⟨by decide, C2_appendWords_sentence 4 2 (0 : Nat) [5, 7, 2] 0 [] 0 [5, 7, 2] (by decide)⟩

/-- C3: when `PipelineScore` returns without raising, the ranges passed to `AppendWords`,
concatenated in call order, are the input cut after its last end-of-sentence token, and
each range is one sentence, so every sentence is appended once and in input order. -/
theorem C3_appended_is_cut_input {σ : Type} {w : Nat} (hw : 0 < w) (kEOS : WordIndex)
    (begin_state : σ) (input : List WordIndex) (tail : Nat) (sched : List Nat)
    (h : (PipelineScore w kEOS begin_state input tail sched).outcome = Outcome.returned) :
    (appendedRanges (PipelineScore w kEOS begin_state input tail sched).events).flatten
      = cutAfterLastEOS kEOS input ∧
    ∀ s ∈ appendedRanges (PipelineScore w kEOS begin_state input tail sched).events,
      IsSentence kEOS s := by
  unfold PipelineScore at h ⊢
  obtain ⟨ranges, he, -, hs, t, ht, hret⟩ := pipelineLoop_inv hw kEOS buff_size begin_state tail
    (input.length + 1) sched input [] (by simp) buff_size_pos (by simp)
  rw [he, appendedRanges_run]
  refine ⟨cut_of_ranges (fun s hs2 => (hs s hs2).1) (hret h).1 (by simpa using ht),
    fun s hs2 => (hs s hs2).1⟩

/-- The witness of C3: the file `5 2 7 2 9` read in two parts, three tokens and two. -/
theorem C3_appended_is_cut_input_witness :
    (PipelineScore 4 2 () [5, 2, 7, 2, 9] 0 [8, 0]).outcome = Outcome.returned ∧
    ((appendedRanges (PipelineScore 4 2 () [5, 2, 7, 2, 9] 0 [8, 0]).events).flatten
      = cutAfterLastEOS 2 [5, 2, 7, 2, 9] ∧
    ∀ s ∈ appendedRanges (PipelineScore 4 2 () [5, 2, 7, 2, 9] 0 [8, 0]).events,
      IsSentence 2 s) :=
  ⟨by decide, C3_appended_is_cut_input (by decide) 2 () [5, 2, 7, 2, 9] 0 [8, 0]
    (by decide)⟩


/-- C4: if the input holds a sentence that, counted with its end-of-sentence token, is
longer than the buffer of 49806 tokens, then `PipelineScore` raises "Buffer is too
small", and what it has passed to `AppendWords` by then lies before that sentence;
`Drain` is not reached.  This holds for the reads that fill the request unless the file
ends (`sched = []`), whatever the file, and for every other way the reads split the file
into whole tokens, that is, when the run does not end at the size check. -/
theorem C4_long_sentence_raises {σ : Type} {w : Nat} (hw : 0 < w) (kEOS : WordIndex)
    (begin_state : σ) (pre body post : List WordIndex) (tail : Nat) (sched : List Nat)
    (hpre : pre = [] ∨ pre.getLast? = some kEOS) (hbody : kEOS ∉ body)
    (hlong : buff_size ≤ body.length)
    (hreads : sched = [] ∨ (PipelineScore w kEOS begin_state (pre ++ (body ++ kEOS :: post))
      tail sched).outcome ≠ Outcome.misaligned) :
    (PipelineScore w kEOS begin_state (pre ++ (body ++ kEOS :: post)) tail sched).outcome
      = Outcome.tooSmall ∧
    (appendedRanges (PipelineScore w kEOS begin_state (pre ++ (body ++ kEOS :: post)) tail
      sched).events).flatten <+: pre ∧
    Event.Drain ∉ (PipelineScore w kEOS begin_state (pre ++ (body ++ kEOS :: post)) tail
      sched).events := by
  unfold PipelineScore at hreads ⊢
  replace hreads : (pipelineLoop w kEOS buff_size begin_state tail
      ((pre ++ (body ++ kEOS :: post)).length + 1) sched (pre ++ (body ++ kEOS :: post))
      []).outcome ≠ Outcome.misaligned := by
    rcases hreads with h | h
    · rw [h]
      exact @pipelineLoop_long_aligned σ w hw kEOS buff_size begin_state tail body post hbody
        hlong _ _ [] pre (List.nil_append _) hpre buff_size_pos
    · exact h
  obtain ⟨ranges, he, hfuel, hs, t, ht, hret⟩ := pipelineLoop_inv hw kEOS buff_size begin_state
    tail ((pre ++ (body ++ kEOS :: post)).length + 1) sched (pre ++ (body ++ kEOS :: post)) []
    (by simp) buff_size_pos (by simp)
  generalize pipelineLoop w kEOS buff_size begin_state tail
    ((pre ++ (body ++ kEOS :: post)).length + 1) sched (pre ++ (body ++ kEOS :: post)) [] = r at *
  rw [List.nil_append] at ht
  obtain ⟨u, hu⟩ := ranges_stop_before_long hbody hlong ranges pre t hs hpre ht
  have hnot : r.outcome ≠ Outcome.returned := by
    intro hr
    have hk := (hret hr).1
    rw [← hu, List.append_assoc] at ht
    have := List.append_cancel_left ht
    rw [this] at hk
    exact hk (by simp)
  have hout : r.outcome = Outcome.tooSmall := by
    cases ho : r.outcome with
    | returned => exact absurd ho hnot
    | misaligned => exact absurd ho hreads
    | tooSmall => rfl
    | outOfFuel => exact absurd ho hfuel
  refine ⟨hout, ?_, ?_⟩
  · rw [he, appendedRanges_run]; exact ⟨u, hu⟩
  · rw [he, if_neg hnot]; simp

/-- The witness of C4: a sentence of 49806 tokens `5` and the end-of-sentence token 2, read
with reads that fill the request. -/
theorem C4_long_sentence_raises_witness :
    (PipelineScore 4 2 () ([] ++ (List.replicate buff_size 5 ++ 2 :: [])) 0 []).outcome
      = Outcome.tooSmall ∧
    (appendedRanges (PipelineScore 4 2 () ([] ++ (List.replicate buff_size 5 ++ 2 :: [])) 0
      []).events).flatten <+: [] ∧
    Event.Drain ∉ (PipelineScore 4 2 () ([] ++ (List.replicate buff_size 5 ++ 2 :: [])) 0
      []).events :=
  C4_long_sentence_raises (by decide) 2 () [] (List.replicate buff_size 5) [] 0 []
    (Or.inl rfl) (fun h => absurd (List.eq_of_mem_replicate h) (by decide))
    (le_of_eq (List.length_replicate _ _).symm) (Or.inl rfl)

/-- The failure of C7 as stated: on the file of one end-of-sentence token 2 and then 49806
tokens `5`, read with reads that fill the request, `PipelineScore` calls `AppendWords`,
then raises "Buffer is too small", and never calls `Drain`. -/
theorem C7_counterexample :
    (PipelineScore 4 2 () (2 :: List.replicate buff_size 5) 0 []).outcome = Outcome.tooSmall ∧
    Event.AppendWords () [2]
      ∈ (PipelineScore 4 2 () (2 :: List.replicate buff_size 5) 0 []).events ∧
    Event.Drain ∉ (PipelineScore 4 2 () (2 :: List.replicate buff_size 5) 0 []).events := by
  have h : PipelineScore 4 2 () (2 :: List.replicate buff_size 5) 0 []
      = ⟨Outcome.tooSmall, [Event.AppendWords () [2]]⟩ := by
    unfold PipelineScore
    exact pipelineLoop_second_long (by decide) (by decide) buff_size_pos () 0 _
      (by rw [List.length_cons]; omega)
  rw [h]
  exact ⟨rfl, List.mem_singleton.2 rfl, by simp⟩

/-- Where `Drain` stands in a run of `PipelineScore`. -/
theorem pipelineScore_drain {σ : Type} (w : Nat) (kEOS : WordIndex) (begin_state : σ)
    (input : List WordIndex) (tail : Nat) (sched : List Nat) :
    ((PipelineScore w kEOS begin_state input tail sched).outcome = Outcome.returned →
      (PipelineScore w kEOS begin_state input tail sched).events =
        (appendedRanges (PipelineScore w kEOS begin_state input tail sched).events).map
          (Event.AppendWords begin_state) ++ [Event.Drain] ∧
      drainCount (PipelineScore w kEOS begin_state input tail sched).events = 1) ∧
    ((PipelineScore w kEOS begin_state input tail sched).outcome ≠ Outcome.returned →
      Event.Drain ∉ (PipelineScore w kEOS begin_state input tail sched).events) := by
  unfold PipelineScore
  obtain ⟨ranges, he, -⟩ := pipelineLoop_events w kEOS buff_size begin_state tail
    (input.length + 1) sched input []
  generalize pipelineLoop w kEOS buff_size begin_state tail (input.length + 1) sched input []
    = r at *
  constructor
  · intro hr
    rw [he, appendedRanges_run, if_pos hr, drainCount_append, drainCount_map]
    exact ⟨rfl, rfl⟩
  · intro hr
    rw [he, if_neg hr]
    simp

/-- C7, amended: a run of `PipelineScore` that returns calls `Drain` exactly once, after all
its calls of `AppendWords`, as its last call; a run that raises never calls `Drain`. -/
theorem C7_drain_on_return {σ : Type} (w : Nat) (kEOS : WordIndex) (begin_state : σ)
    (input : List WordIndex) (tail : Nat) (sched : List Nat) :
    ((PipelineScore w kEOS begin_state input tail sched).outcome = Outcome.returned →
      (PipelineScore w kEOS begin_state input tail sched).events =
        (appendedRanges (PipelineScore w kEOS begin_state input tail sched).events).map
          (Event.AppendWords begin_state) ++ [Event.Drain] ∧
      drainCount (PipelineScore w kEOS begin_state input tail sched).events = 1) ∧
    ((PipelineScore w kEOS begin_state input tail sched).outcome ≠ Outcome.returned →
      Event.Drain ∉ (PipelineScore w kEOS begin_state input tail sched).events) :=
  pipelineScore_drain w kEOS begin_state input tail sched

/-- The witness of C7, amended: the file `5 7 2` is read and drained; the file `5 7`, which
has no end-of-sentence token, raises and is not drained. -/
theorem C7_drain_on_return_witness :
    (PipelineScore 4 2 () [5, 7, 2] 0 []).events
      = [Event.AppendWords () [5, 7, 2], Event.Drain] ∧
    Event.Drain ∉ (PipelineScore 4 2 () [5, 7] 0 []).events :=
  ⟨by
    have h := (C7_drain_on_return 4 2 () [5, 7, 2] 0 []).1 (by decide)
    rw [h.1]
    decide,
   (C7_drain_on_return 4 2 () [5, 7] 0 []).2 (by decide)⟩

/-- The failure of C10 as stated: the file of the single token `5`, with 2 for the end of
sentence and reads that fill the request, has no 49806 tokens in a row without an
end-of-sentence token, yet `PipelineScore` raises "Buffer is too small" and does not reach
`Drain`. -/
theorem C10_counterexample :
    (∀ l : List WordIndex, l <:+: [5] → 2 ∉ l → l.length ≤ 49805) ∧
    (PipelineScore 4 2 () [5] 0 []).outcome = Outcome.tooSmall ∧
    Event.Drain ∉ (PipelineScore 4 2 () [5] 0 []).events := by
  refine ⟨?_, by decide, by decide⟩
  intro l hl _
  have := hl.length_le
  simp at this
  omega

/-- C10, amended: with reads that fill the request unless the file ends, on a file of whole
tokens that is empty or ends with the end-of-sentence token and has at most 49805 tokens
in a row without an end-of-sentence token, `PipelineScore` raises nothing and reaches
`Drain`, which it calls once. -/
theorem C10_full_reads_return {σ : Type} {w : Nat} (hw : 0 < w) (kEOS : WordIndex)
    (begin_state : σ) (input : List WordIndex) (tail : Nat) (ht : tail % w = 0)
    (hend : input = [] ∨ input.getLast? = some kEOS)
    (hruns : ∀ l : List WordIndex, l <:+: input → kEOS ∉ l → l.length ≤ 49805) :
    (PipelineScore w kEOS begin_state input tail []).outcome = Outcome.returned ∧
    drainCount (PipelineScore w kEOS begin_state input tail []).events = 1 := by
  have h : (PipelineScore w kEOS begin_state input tail []).outcome = Outcome.returned := by
    unfold PipelineScore
    apply pipelineLoop_full_reads hw kEOS buff_size begin_state tail ht _ _ _ (by simp)
      (by simp) hend
    intro l hl hk
    have := hruns l (by simpa using hl) hk
    unfold buff_size
    omega
  exact ⟨h, ((pipelineScore_drain w kEOS begin_state input tail []).1 h).2⟩

/-- The witness of C10, amended: the file `5 7 2`, with 2 for the end of sentence. -/
theorem C10_full_reads_return_witness :
    (PipelineScore 4 2 () [5, 7, 2] 0 []).outcome = Outcome.returned ∧
    drainCount (PipelineScore 4 2 () [5, 7, 2] 0 []).events = 1 :=
  C10_full_reads_return (by decide) 2 () [5, 7, 2] 0 (by decide) (Or.inr (by decide))
    (fun l hl _ => by
      have := hl.length_le
      simp at this
      omega)

/-! ## The loop of `ModelScore` -/

/-- The calls `cs` are chained from the variables `v`: from the slot `in_state` points to
and the state it holds. -/
theorem scoreWord_chained {σ : Type} (kEOS : WordIndex) (fullScore : σ → WordIndex → σ)
    (begin_state : σ) (out : Slot) (hout : out ≠ Slot.begin) (x : WordIndex) (v : Vars σ)
    (cs : List (Call σ))
    (h : chainedFrom kEOS begin_state (scoreWord kEOS fullScore begin_state out x v).2.in_state
      ((scoreWord kEOS fullScore begin_state out x v).2.deref begin_state
        (scoreWord kEOS fullScore begin_state out x v).2.in_state) cs) :
    chainedFrom kEOS begin_state v.in_state (v.deref begin_state v.in_state)
      ((scoreWord kEOS fullScore begin_state out x v).1 :: cs) := by
  refine ⟨rfl, rfl, ?_⟩
  by_cases hx : x = kEOS
  · simpa [scoreWord, hx, Vars.deref] using h
  · cases out with
    | begin => exact absurd rfl hout
    | s0 => simpa [scoreWord, hx, Vars.deref, Vars.store] using h
    | s1 => simpa [scoreWord, hx, Vars.deref, Vars.store] using h
    | s2 => simpa [scoreWord, hx, Vars.deref, Vars.store] using h

theorem scorePairs_chained {σ : Type} (kEOS : WordIndex) (fullScore : σ → WordIndex → σ)
    (begin_state : σ) :
    ∀ (n : Nat) (xs : List WordIndex), xs.length ≤ n → ∀ (v : Vars σ) (cs : List (Call σ)),
      chainedFrom kEOS begin_state (scorePairs kEOS fullScore begin_state xs v).2.in_state
        ((scorePairs kEOS fullScore begin_state xs v).2.deref begin_state
          (scorePairs kEOS fullScore begin_state xs v).2.in_state) cs →
      chainedFrom kEOS begin_state v.in_state (v.deref begin_state v.in_state)
        ((scorePairs kEOS fullScore begin_state xs v).1 ++ cs) := by
  intro n
  induction n with
  | zero =>
    intro xs hn v cs h
    cases xs with
    | nil => simpa [scorePairs] using h
    | cons a l => simp at hn
  | succ n ih =>
    intro xs hn v cs h
    match xs with
    | [] => simpa [scorePairs] using h
    | [a] => simpa [scorePairs] using h
    | a :: b :: l =>
      simp only [scorePairs, List.cons_append] at h ⊢
      apply scoreWord_chained kEOS fullScore begin_state Slot.s1 (by decide)
      apply scoreWord_chained kEOS fullScore begin_state Slot.s0 (by decide)
      exact ih l (by simp at hn; omega) _ cs h


/-- The two shapes of the body of the loop of `ModelScore`: the pairs alone, or the pairs
and one more token scored into `states[2]`. -/
theorem scoreChunk_cases {σ : Type} (w : Nat) (kEOS : WordIndex)
    (fullScore : σ → WordIndex → σ) (begin_state : σ) (got : Nat) (chunk : List WordIndex)
    (v : Vars σ) :
    scoreChunk w kEOS fullScore begin_state got chunk v
      = scorePairs kEOS fullScore begin_state (chunk.take (got / w - got / w % 2)) v ∨
    (got % 2 = 1 ∧ ∃ x,
      scoreChunk w kEOS fullScore begin_state got chunk v
      = ((scorePairs kEOS fullScore begin_state (chunk.take (got / w - got / w % 2)) v).1 ++
          [(scoreWord kEOS fullScore begin_state Slot.s2 x
            (scorePairs kEOS fullScore begin_state
              (chunk.take (got / w - got / w % 2)) v).2).1],
         (scoreWord kEOS fullScore begin_state Slot.s2 x
            (scorePairs kEOS fullScore begin_state
              (chunk.take (got / w - got / w % 2)) v).2).2)) := by
  unfold scoreChunk
  by_cases hg : got % 2 = 1
  · cases hd : chunk.drop (got / w - got / w % 2) with
    | nil => left; simp [hg, hd]
    | cons x l => right; exact ⟨hg, x, by simp [hg, hd]⟩
  · left; simp [hg]

theorem scoreChunk_chained {σ : Type} (w : Nat) (kEOS : WordIndex)
    (fullScore : σ → WordIndex → σ) (begin_state : σ) (got : Nat) (chunk : List WordIndex)
    (v : Vars σ) (cs : List (Call σ))
    (h : chainedFrom kEOS begin_state
      (scoreChunk w kEOS fullScore begin_state got chunk v).2.in_state
      ((scoreChunk w kEOS fullScore begin_state got chunk v).2.deref begin_state
        (scoreChunk w kEOS fullScore begin_state got chunk v).2.in_state) cs) :
    chainedFrom kEOS begin_state v.in_state (v.deref begin_state v.in_state)
      ((scoreChunk w kEOS fullScore begin_state got chunk v).1 ++ cs) := by
  rcases scoreChunk_cases w kEOS fullScore begin_state got chunk v with he | ⟨-, x, he⟩
  · rw [he] at h ⊢
    exact scorePairs_chained kEOS fullScore begin_state _ _ (le_refl _) _ _ h
  · rw [he] at h ⊢
    simp only [List.append_assoc, List.singleton_append]
    apply scorePairs_chained kEOS fullScore begin_state _ _ (le_refl _)
    exact scoreWord_chained kEOS fullScore begin_state Slot.s2 (by decide) _ _ _ h

/-- The calls of the loop of `ModelScore` are chained from the variables it starts with. -/
theorem modelLoop_chained {σ : Type} (w : Nat) (kEOS : WordIndex) (cap : Nat)
    (fullScore : σ → WordIndex → σ) (begin_state : σ) (tail : Nat) :
    ∀ (fuel : Nat) (sched : List Nat) (rest : List WordIndex) (v : Vars σ),
      chainedFrom kEOS begin_state v.in_state (v.deref begin_state v.in_state)
        (modelLoop w kEOS cap fullScore begin_state tail fuel sched rest v).calls := by
  intro fuel
  induction fuel with
  | zero => intro sched rest v; simp [modelLoop, chainedFrom]
  | succ fuel ih =>
    intro sched rest v
    simp only [modelLoop]
    split
    · simp [chainedFrom]
    · split
      · simp [chainedFrom]
      · exact scoreChunk_chained w kEOS fullScore begin_state _ _ v _ (ih _ _ _)

/-- Every call of `scoreWord` into `states[k]` writes a slot other than `begin_state`. -/
theorem scorePairs_out {σ : Type} (kEOS : WordIndex) (fullScore : σ → WordIndex → σ)
    (begin_state : σ) :
    ∀ (n : Nat) (xs : List WordIndex), xs.length ≤ n → ∀ (v : Vars σ),
      ∀ c ∈ (scorePairs kEOS fullScore begin_state xs v).1, c.out_slot ≠ Slot.begin := by
  intro n
  induction n with
  | zero =>
    intro xs hn v
    cases xs with
    | nil => simp [scorePairs]
    | cons a l => simp at hn
  | succ n ih =>
    intro xs hn v
    match xs with
    | [] => simp [scorePairs]
    | [a] => simp [scorePairs]
    | a :: b :: l =>
      simp only [scorePairs, List.mem_cons]
      rintro c (rfl | rfl | hc)
      · simp [scoreWord]
      · simp [scoreWord]
      · exact ih l (by simp at hn; omega) _ c hc

theorem scoreChunk_out {σ : Type} (w : Nat) (kEOS : WordIndex)
    (fullScore : σ → WordIndex → σ) (begin_state : σ) (got : Nat) (chunk : List WordIndex)
    (v : Vars σ) :
    ∀ c ∈ (scoreChunk w kEOS fullScore begin_state got chunk v).1, c.out_slot ≠ Slot.begin := by
  have hp := fun xs v => scorePairs_out kEOS fullScore begin_state _ xs (le_refl _) v
  rcases scoreChunk_cases w kEOS fullScore begin_state got chunk v with he | ⟨-, x, he⟩
  · rw [he]; exact hp _ _
  · rw [he]
    intro c hc
    rcases List.mem_append.1 hc with hc | hc
    · exact hp _ _ c hc
    · rw [List.mem_singleton.1 hc]; simp [scoreWord]

theorem modelLoop_out {σ : Type} (w : Nat) (kEOS : WordIndex) (cap : Nat)
    (fullScore : σ → WordIndex → σ) (begin_state : σ) (tail : Nat) :
    ∀ (fuel : Nat) (sched : List Nat) (rest : List WordIndex) (v : Vars σ),
      ∀ c ∈ (modelLoop w kEOS cap fullScore begin_state tail fuel sched rest v).calls,
        c.out_slot ≠ Slot.begin := by
  intro fuel
  induction fuel with
  | zero => intro sched rest v; simp [modelLoop]
  | succ fuel ih =>
    intro sched rest v
    simp only [modelLoop]
    split
    · simp
    · split
      · simp
      · intro c hc
        rcases List.mem_append.1 hc with hc | hc
        · exact scoreChunk_out w kEOS fullScore begin_state _ _ v c hc
        · exact ih _ _ _ c hc

/-- Between pairs `in_state` points to `begin_state` or `states[0]`, and inside a pair no
call reads the slot it writes. -/
theorem scorePairs_slots {σ : Type} (kEOS : WordIndex) (fullScore : σ → WordIndex → σ)
    (begin_state : σ) :
    ∀ (n : Nat) (xs : List WordIndex), xs.length ≤ n → ∀ (v : Vars σ),
      (v.in_state = Slot.begin ∨ v.in_state = Slot.s0) →
      (∀ c ∈ (scorePairs kEOS fullScore begin_state xs v).1, c.in_slot ≠ c.out_slot) ∧
      ((scorePairs kEOS fullScore begin_state xs v).2.in_state = Slot.begin ∨
        (scorePairs kEOS fullScore begin_state xs v).2.in_state = Slot.s0) := by
  intro n
  induction n with
  | zero =>
    intro xs hn v hv
    cases xs with
    | nil => simpa [scorePairs] using hv
    | cons a l => simp at hn
  | succ n ih =>
    intro xs hn v hv
    match xs with
    | [] => simpa [scorePairs] using hv
    | [a] => simpa [scorePairs] using hv
    | a :: b :: l =>
      simp only [scorePairs, List.mem_cons]
      have h2 : (scoreWord kEOS fullScore begin_state Slot.s0 b
          (scoreWord kEOS fullScore begin_state Slot.s1 a v).2).2.in_state = Slot.begin ∨
          (scoreWord kEOS fullScore begin_state Slot.s0 b
          (scoreWord kEOS fullScore begin_state Slot.s1 a v).2).2.in_state = Slot.s0 := by
        by_cases hb : b = kEOS <;> simp [scoreWord, hb]
      obtain ⟨i1, i2⟩ := ih l (by simp at hn; omega) _ h2
      refine ⟨?_, i2⟩
      rintro c (rfl | rfl | hc)
      · rcases hv with h | h <;> simp [scoreWord, h]
      · by_cases ha : a = kEOS <;> simp [scoreWord, ha]
      · exact i1 c hc


theorem even_of_aligned {w got : Nat} (he : w % 2 = 0) (hg : got % w = 0) : got % 2 = 0 :=
  Nat.mod_eq_zero_of_dvd
    (Nat.dvd_trans (Nat.dvd_of_mod_eq_zero he) (Nat.dvd_of_mod_eq_zero hg))

/-- When the size of a token is even, no call of the loop of `ModelScore` reads the slot it
writes. -/
theorem modelLoop_slots {σ : Type} {w : Nat} (he : w % 2 = 0) (kEOS : WordIndex) (cap : Nat)
    (fullScore : σ → WordIndex → σ) (begin_state : σ) (tail : Nat) :
    ∀ (fuel : Nat) (sched : List Nat) (rest : List WordIndex) (v : Vars σ),
      (v.in_state = Slot.begin ∨ v.in_state = Slot.s0) →
      ∀ c ∈ (modelLoop w kEOS cap fullScore begin_state tail fuel sched rest v).calls,
        c.in_slot ≠ c.out_slot := by
  intro fuel
  induction fuel with
  | zero => intro sched rest v _; simp [modelLoop]
  | succ fuel ih =>
    intro sched rest v hv
    simp only [modelLoop]
    split
    · simp
    · split
      · simp
      · rename_i h0 hm
        have hm2 : ReadOrEOF (bytesLeft w rest tail) (sched.headD 0) (cap * w) % w = 0 := by
          simpa using hm
        have h2 := even_of_aligned he hm2
        rcases scoreChunk_cases w kEOS fullScore begin_state
          (ReadOrEOF (bytesLeft w rest tail) (sched.headD 0) (cap * w))
          (rest.take (ReadOrEOF (bytesLeft w rest tail) (sched.headD 0) (cap * w) / w)) v
          with hc | ⟨h1, -⟩
        · rw [hc]
          obtain ⟨p1, p2⟩ := scorePairs_slots kEOS fullScore begin_state _ _ (le_refl _) v hv
          intro c hcm
          rcases List.mem_append.1 hcm with hcm | hcm
          · exact p1 c hcm
          · exact ih _ _ _ p2 c hcm
        · omega

theorem scorePairs_words {σ : Type} (kEOS : WordIndex) (fullScore : σ → WordIndex → σ)
    (begin_state : σ) :
    ∀ (n : Nat) (xs : List WordIndex), xs.length ≤ n → xs.length % 2 = 0 → ∀ (v : Vars σ),
      (scorePairs kEOS fullScore begin_state xs v).1.map Call.word = xs := by
  intro n
  induction n with
  | zero =>
    intro xs hn _ v
    cases xs with
    | nil => simp [scorePairs]
    | cons a l => simp at hn
  | succ n ih =>
    intro xs hn hx v
    match xs with
    | [] => simp [scorePairs]
    | [a] => simp at hx
    | a :: b :: l =>
      simp only [scorePairs, List.map_cons]
      rw [ih l (by simp at hn; omega) (by simp at hx; omega)]
      simp [scoreWord]

theorem scoreChunk_words {σ : Type} {w : Nat} (kEOS : WordIndex)
    (fullScore : σ → WordIndex → σ) (begin_state : σ) (got : Nat) (chunk : List WordIndex)
    (v : Vars σ) (hg : got % w = 0) (hn : got / w % 2 = 0) (hl : chunk.length = got / w) :
    (scoreChunk w kEOS fullScore begin_state got chunk v).1.map Call.word = chunk := by
  rcases scoreChunk_cases w kEOS fullScore begin_state got chunk v with hc | ⟨h1, -⟩
  · rw [hc, hn, Nat.sub_zero, ← hl, List.take_length]
    exact scorePairs_words kEOS fullScore begin_state _ _ (le_refl _) (by omega) v
  · exfalso
    have h2 : got % 2 = 0 := by
      have hd : got = got / w * w := (Nat.div_mul_cancel (Nat.dvd_of_mod_eq_zero hg)).symm
      rw [hd]
      exact Nat.mod_eq_zero_of_dvd
        (Dvd.dvd.mul_right (Nat.dvd_of_mod_eq_zero hn) w)
    omega

/-- The loop of `ModelScore` never runs out of the fuel `ModelScore` gives it, and when it
returns after reads of an even number of tokens each, it has scored the tokens of the
file in order. -/
theorem modelLoop_words {σ : Type} {w : Nat} (hw : 0 < w) (kEOS : WordIndex) {cap : Nat}
    (hcap : 0 < cap) (fullScore : σ → WordIndex → σ) (begin_state : σ) (tail : Nat) :
    ∀ (fuel : Nat) (sched : List Nat) (rest : List WordIndex) (v : Vars σ),
      rest.length < fuel →
      (modelLoop w kEOS cap fullScore begin_state tail fuel sched rest v).outcome
        ≠ Outcome.outOfFuel ∧
      ((modelLoop w kEOS cap fullScore begin_state tail fuel sched rest v).outcome
        = Outcome.returned →
      (∀ g ∈ (modelLoop w kEOS cap fullScore begin_state tail fuel sched rest v).reads,
        g / w % 2 = 0) →
      (modelLoop w kEOS cap fullScore begin_state tail fuel sched rest v).calls.map Call.word
        = rest) := by
  intro fuel
  induction fuel with
  | zero => intro sched rest v h; simp at h
  | succ fuel ih =>
    intro sched rest v hfuel
    simp only [modelLoop]
    generalize hg : ReadOrEOF (bytesLeft w rest tail) (sched.headD 0) (cap * w) = got
    by_cases h0 : got = 0
    · simp only [h0, if_true]
      have : bytesLeft w rest tail = 0 := by
        rw [← hg, ReadOrEOF_eq_zero] at h0
        rcases h0 with h | h
        · exact h
        · have : 0 < cap * w := Nat.mul_pos hcap hw
          omega
      unfold bytesLeft at this
      have hr : rest = [] := by
        cases rest with
        | nil => rfl
        | cons a l =>
          simp [Nat.add_mul] at this
          omega
      simp [hr]
    · by_cases hm : got % w = 0
      · simp only [h0, hm, if_false, ne_eq, not_true_eq_false]
        obtain ⟨f1, f2, -⟩ := read_facts hw rest tail (sched.headD 0) (cap * w)
          (by rw [hg]; exact h0) (by rw [hg]; exact hm)
        rw [hg] at f1 f2
        obtain ⟨i1, i2⟩ := ih sched.tail (rest.drop (got / w))
          (scoreChunk w kEOS fullScore begin_state got (rest.take (got / w)) v).2
          (by simp only [List.length_drop]; omega)
        refine ⟨i1, fun hret hreads => ?_⟩
        rw [List.map_append, i2 hret (fun g hgm => hreads g (List.mem_cons_of_mem _ hgm)),
          scoreChunk_words kEOS fullScore begin_state got _ v hm
            (hreads got (List.mem_cons_self _ _))
            (by rw [List.length_take]; omega),
          List.take_append_drop]
      · simp [h0, hm]

theorem markStream_body (kEOS : WordIndex) :
    ∀ (ys rest : List WordIndex), kEOS ∉ ys →
      markStream kEOS false (ys ++ kEOS :: rest)
        = (ys ++ [kEOS]).map (fun t => (t, false)) ++ markStream kEOS true rest := by
  intro ys
  induction ys with
  | nil => intro rest _; simp [markStream]
  | cons y ys ih =>
    intro rest h
    have hy : y ≠ kEOS := fun e => h (by simp [e])
    rw [List.cons_append, markStream, List.cons_append, List.map_cons, List.cons_append]
    simp only [hy, decide_False]
    rw [ih rest (fun e => h (by simp [e]))]

theorem markStream_sentence (kEOS : WordIndex) {s : List WordIndex} (hs : IsSentence kEOS s)
    (rest : List WordIndex) :
    markStream kEOS true (s ++ rest) = markRange s ++ markStream kEOS true rest := by
  obtain ⟨body, rfl, hb⟩ := hs
  cases body with
  | nil => simp [markStream, markRange]
  | cons y ys =>
    have hy : y ≠ kEOS := fun e => hb (by simp [e])
    rw [List.cons_append, List.cons_append, markStream, markRange, List.cons_append,
      List.append_assoc, List.singleton_append]
    simp only [hy, decide_False]
    rw [markStream_body kEOS ys rest (fun e => hb (by simp [e]))]

/-- The corpus handed to the pipeline is the stream of the appended tokens, marked at the
front and after each end of sentence. -/
theorem appendedCorpus_eq (kEOS : WordIndex) :
    ∀ ranges : List (List WordIndex), (∀ s ∈ ranges, IsSentence kEOS s) →
      appendedCorpus ranges = markStream kEOS true ranges.flatten := by
  intro ranges
  induction ranges with
  | nil => intro _; simp [appendedCorpus, markStream]
  | cons s rs ih =>
    intro h
    have := ih (fun s hs => h s (List.mem_cons_of_mem _ hs))
    unfold appendedCorpus at this ⊢
    rw [List.map_cons, List.flatten_cons, List.flatten_cons,
      markStream_sentence kEOS (h s (List.mem_cons_self _ _)), this]

/-- The corpus of chained calls is the stream of their tokens, marked at the front if the
chain starts at `begin_state`, and after each end of sentence. -/
theorem scoredCorpus_eq {σ : Type} (kEOS : WordIndex) (begin_state : σ) :
    ∀ (calls : List (Call σ)) (sl : Slot) (st : σ),
      chainedFrom kEOS begin_state sl st calls →
      (∀ c ∈ calls, c.out_slot ≠ Slot.begin) →
      scoredCorpus calls = markStream kEOS (decide (sl = Slot.begin)) (calls.map Call.word) := by
  intro calls
  induction calls with
  | nil => intro sl st _ _; simp [scoredCorpus, markStream]
  | cons c cs ih =>
    intro sl st hch hout
    obtain ⟨h1, -, h3⟩ := hch
    have hc := hout c (List.mem_cons_self _ _)
    have := ih _ _ h3 (fun c hcm => hout c (List.mem_cons_of_mem _ hcm))
    unfold scoredCorpus at this ⊢
    rw [List.map_cons, List.map_cons, markStream, this, h1]
    by_cases hw : c.word = kEOS
    · simp [hw]
    · simp [hw, hc]


/-- The fuel `ModelScore` gives its loop is never used up: every run returns or raises. -/
theorem ModelScore_fuel {σ : Type} {w : Nat} (hw : 0 < w) (kEOS : WordIndex)
    (fullScore : σ → WordIndex → σ) (begin_state states0 states1 states2 : σ)
    (input : List WordIndex) (tail : Nat) (sched : List Nat) :
    (ModelScore w kEOS fullScore begin_state states0 states1 states2 input tail sched).outcome
      ≠ Outcome.outOfFuel :=
  (modelLoop_words hw kEOS buff_size_pos fullScore begin_state tail (input.length + 1) sched
    input ⟨Slot.begin, states0, states1, states2⟩ (by simp)).1

/-- C8: in `ModelScore` every scored token gets as context the begin-sentence state when it
is the first token scored or the token scored before it was the end-of-sentence token,
and otherwise the state written by the call for the token scored before it, whatever the
reads; and no call is given the same slot to read and to write (the size of a token being
even, as the four bytes of `unsigned int` are). -/
theorem C8_contexts_chained {σ : Type} {w : Nat} (he : w % 2 = 0) (kEOS : WordIndex)
    (fullScore : σ → WordIndex → σ) (begin_state states0 states1 states2 : σ)
    (input : List WordIndex) (tail : Nat) (sched : List Nat) :
    chainedFrom kEOS begin_state Slot.begin begin_state
      (ModelScore w kEOS fullScore begin_state states0 states1 states2 input tail sched).calls ∧
    ∀ c ∈ (ModelScore w kEOS fullScore begin_state states0 states1 states2 input tail
      sched).calls, c.in_slot ≠ c.out_slot :=
  ⟨modelLoop_chained w kEOS buff_size fullScore begin_state tail (input.length + 1) sched input
      ⟨Slot.begin, states0, states1, states2⟩,
    modelLoop_slots he kEOS buff_size fullScore begin_state tail (input.length + 1) sched input
      ⟨Slot.begin, states0, states1, states2⟩ (Or.inl rfl)⟩

/-- The witness of C8: tokens of four bytes, the file `5 2 7 6 9 2` read in two parts. -/
theorem C8_contexts_chained_witness :
    4 % 2 = 0 ∧
    (chainedFrom 2 1 Slot.begin 1
      (ModelScore 4 2 (fun s t => 10 * s + t) 1 100 200 300 [5, 2, 7, 6, 9, 2] 0 [16]).calls ∧
    ∀ c ∈ (ModelScore 4 2 (fun s t => 10 * s + t) 1 100 200 300 [5, 2, 7, 6, 9, 2] 0
      [16]).calls, c.in_slot ≠ c.out_slot) :=
  ⟨by decide, C8_contexts_chained (by decide) 2 (fun s t => 10 * s + t) 1 100 200 300
    [5, 2, 7, 6, 9, 2] 0 [16]⟩

/-- C9, the code at the failing input: tokens of four bytes, the file `5 7 2` of three
tokens.  The one read returns 12 bytes, `got & 1` is 0, and `ModelScore` returns having
scored `5` and `7` only: the third token is never given to `FullScore`. -/
theorem C9_odd_read_loses_last_token :
    (ModelScore 4 2 (fun s t => 10 * s + t) 1 100 200 300 [5, 7, 2] 0 []).outcome
      = Outcome.returned ∧
    (ModelScore 4 2 (fun s t => 10 * s + t) 1 100 200 300 [5, 7, 2] 0 []).reads = [12] ∧
    (ModelScore 4 2 (fun s t => 10 * s + t) 1 100 200 300 [5, 7, 2] 0 []).calls.map Call.word
      = [5, 7] := by
  decide

/-- The failure of C1 as stated: tokens of four bytes, the file `5 2 5 7`, with 2 for the end
of sentence, read whole by both drivers.  Both return; `ModelScore` scores all four
tokens, `PipelineScore` appends the sentence `5 2` only. -/
theorem C1_counterexample :
    (ModelScore 4 2 (fun s t => 10 * s + t) 1 100 200 300 [5, 2, 5, 7] 0 []).outcome
      = Outcome.returned ∧
    (PipelineScore 4 2 1 [5, 2, 5, 7] 0 []).outcome = Outcome.returned ∧
    scoredCorpus (ModelScore 4 2 (fun s t => 10 * s + t) 1 100 200 300 [5, 2, 5, 7] 0 []).calls
      = [(5, true), (2, false), (5, true), (7, false)] ∧
    appendedCorpus (appendedRanges (PipelineScore 4 2 1 [5, 2, 5, 7] 0 []).events)
      = [(5, true), (2, false)] ∧
    scoredCorpus (ModelScore 4 2 (fun s t => 10 * s + t) 1 100 200 300 [5, 2, 5, 7] 0 []).calls
      ≠ appendedCorpus (appendedRanges (PipelineScore 4 2 1 [5, 2, 5, 7] 0 []).events) := by
  decide

/-- C1, amended: on a file that is empty or ends with the end-of-sentence token, when
`ModelScore` returns after reads of an even number of whole tokens each and
`PipelineScore` returns, the two drivers score the same corpus: the tokens given to
`FullScore`, each with whether it starts from the begin state, are the ranges passed to
`AppendWords`, concatenated, the first token of each range starting from the begin
state. -/
theorem C1_same_corpus {σ : Type} {w : Nat} (hw : 0 < w) (kEOS : WordIndex)
    (fullScore : σ → WordIndex → σ) (begin_state states0 states1 states2 : σ)
    (input : List WordIndex) (tail : Nat) (schedM schedP : List Nat)
    (hend : input = [] ∨ input.getLast? = some kEOS)
    (hM : (ModelScore w kEOS fullScore begin_state states0 states1 states2 input tail
      schedM).outcome = Outcome.returned)
    (hE : ∀ g ∈ (ModelScore w kEOS fullScore begin_state states0 states1 states2 input tail
      schedM).reads, g / w % 2 = 0)
    (hP : (PipelineScore w kEOS begin_state input tail schedP).outcome = Outcome.returned) :
    scoredCorpus (ModelScore w kEOS fullScore begin_state states0 states1 states2 input tail
      schedM).calls
      = appendedCorpus (appendedRanges (PipelineScore w kEOS begin_state input tail
        schedP).events) := by
  have hwords := (modelLoop_words hw kEOS buff_size_pos fullScore begin_state tail
    (input.length + 1) schedM input ⟨Slot.begin, states0, states1, states2⟩ (by simp)).2 hM hE
  have hch := modelLoop_chained w kEOS buff_size fullScore begin_state tail (input.length + 1)
    schedM input ⟨Slot.begin, states0, states1, states2⟩
  have hout := modelLoop_out w kEOS buff_size fullScore begin_state tail (input.length + 1)
    schedM input ⟨Slot.begin, states0, states1, states2⟩
  have hm := scoredCorpus_eq kEOS begin_state _ _ _ hch hout
  rw [hwords] at hm
  unfold PipelineScore at hP ⊢
  obtain ⟨ranges, he, -, hs, t, ht, hret⟩ := pipelineLoop_inv hw kEOS buff_size begin_state tail
    (input.length + 1) schedP input [] (by simp) buff_size_pos (by simp)
  have hcut := cut_of_ranges (fun s hs2 => (hs s hs2).1) (hret hP).1 (by simpa using ht)
  have hfix : cutAfterLastEOS kEOS input = input := by
    apply cutAfterLastEOS_fixed
    rcases hend with h | h
    · exact Or.inl h
    · exact Or.inr (List.getLast?_eq_some_iff.1 h)
  rw [he, appendedRanges_run, appendedCorpus_eq kEOS ranges (fun s hs2 => (hs s hs2).1),
    hcut, hfix]
  exact hm

/-- The witness of C1, amended: tokens of four bytes, the file `5 2 7 6 9 2`; `ModelScore`
reads four tokens and then two, `PipelineScore` three and three. -/
theorem C1_same_corpus_witness :
    scoredCorpus (ModelScore 4 2 (fun s t => 10 * s + t) 1 100 200 300 [5, 2, 7, 6, 9, 2] 0
      [8]).calls
      = appendedCorpus (appendedRanges (PipelineScore 4 2 1 [5, 2, 7, 6, 9, 2] 0
        [12]).events) :=
  C1_same_corpus (by decide) 2 (fun s t => 10 * s + t) 1 100 200 300 [5, 2, 7, 6, 9, 2] 0
    [8] [12] (by decide) (by decide) (by decide) (by decide)

/-! ## The loop of `DispatchFunction` -/

theorem toSizeT_of_nonneg {i : Int} (h0 : 0 ≤ i) (h1 : i < 2 ^ 64) : toSizeT i = i.toNat := by
  unfold toSizeT
  rw [Int.emod_eq_of_lt h0 h1]

/-- The loop of `DispatchFunction` over passes that all return: from `p` up to `e`. -/
theorem dispatchLoop_range (score : Nat → Outcome) (hs : ∀ p, score p = Outcome.returned)
    (e : Nat) (he : e + 1 < 2 ^ 64) :
    ∀ (fuel p : Nat), e + 1 - p < fuel →
      dispatchLoop score e fuel p = (Outcome.returned, List.range' p (e + 1 - p)) := by
  intro fuel
  induction fuel with
  | zero => intro p h; omega
  | succ fuel ih =>
    intro p h
    by_cases hp : p ≤ e
    · have hmod : (p + 1) % 2 ^ 64 = p + 1 := Nat.mod_eq_of_lt (by omega)
      have hn : e + 1 - p = (e + 1 - (p + 1)) + 1 := by omega
      simp only [dispatchLoop, hp, if_true, hs p, hmod]
      rw [ih (p + 1) (by omega), hn, List.range'_succ]
    · have hn : e + 1 - p = 0 := by omega
      simp [dispatchLoop, hp, hn]

/-- The failure of C6 as stated: with `pipeline_size_start` 0 and `pipeline_size_end` 0, on
an empty file, `DispatchFunction` constructs one pipeline, of pool size 0. -/
theorem C6_counterexample :
    DispatchFunction 4 2 (fun s _ => s) () () () () ⟨0, 0, "pipeline"⟩ [] 0 (fun _ => []) 2
      = (Outcome.returned, [0]) ∧
    ¬ ∀ p ∈ (DispatchFunction 4 2 (fun s _ => s) () () () () ⟨0, 0, "pipeline"⟩ [] 0
      (fun _ => []) 2).2, 1 ≤ p := by
  decide

/-- C6, amended: in "pipeline" mode, for values of `int` with `pipeline_size_start` at
least 1 and `pipeline_size_end` at least 0, and as long as no pass of `PipelineScore`
raises, `DispatchFunction` ends after constructing pipelines of the pool sizes from
`pipeline_size_start` to `pipeline_size_end` inclusive, each once, in ascending order
(none when the end is below the start), and every pool size is at least 1. -/
theorem C6_pool_sizes {σ : Type} (w : Nat) (kEOS : WordIndex) (fullScore : σ → WordIndex → σ)
    (begin_state states0 states1 states2 : σ) (options : Config) (input : List WordIndex)
    (tail : Nat) (sched : Nat → List Nat) (fuel : Nat)
    (hty : options.type = "pipeline")
    (h1 : 1 ≤ options.pipeline_size_start) (h2 : options.pipeline_size_start < 2 ^ 31)
    (h3 : 0 ≤ options.pipeline_size_end) (h4 : options.pipeline_size_end < 2 ^ 31)
    (hret : ∀ p, (PipelineScore w kEOS begin_state input tail (sched p)).outcome
      = Outcome.returned)
    (hfuel : (options.pipeline_size_end + 1 - options.pipeline_size_start).toNat < fuel) :
    DispatchFunction w kEOS fullScore begin_state states0 states1 states2 options input tail
        sched fuel
      = (Outcome.returned, List.range' options.pipeline_size_start.toNat
          (options.pipeline_size_end + 1 - options.pipeline_size_start).toNat) ∧
    ∀ p ∈ (DispatchFunction w kEOS fullScore begin_state states0 states1 states2 options input
      tail sched fuel).2, 1 ≤ p := by
  have hne : ¬ ("pipeline" = "probing") := by decide
  have hd : DispatchFunction w kEOS fullScore begin_state states0 states1 states2 options
      input tail sched fuel
      = (Outcome.returned, List.range' options.pipeline_size_start.toNat
          (options.pipeline_size_end + 1 - options.pipeline_size_start).toNat) := by
    unfold DispatchFunction
    rw [hty, if_neg hne, if_pos rfl, toSizeT_of_nonneg h3 (by omega),
      toSizeT_of_nonneg (by omega) (by omega),
      dispatchLoop_range _ hret _ (by omega) fuel _ (by omega)]
    congr 2
    omega
  refine ⟨hd, ?_⟩
  rw [hd]
  intro p hp
  have := (List.mem_range'_1.1 hp).1
  omega

/-- The witness of C6, amended: pool sizes 2 to 4 on the file `5 2`. -/
theorem C6_pool_sizes_witness :
    DispatchFunction 4 2 (fun s _ => s) () () () () ⟨2, 4, "pipeline"⟩ [5, 2] 0 (fun _ => []) 4
      = (Outcome.returned, List.range' (2 : Int).toNat ((4 : Int) + 1 - 2).toNat) ∧
    ∀ p ∈ (DispatchFunction 4 2 (fun s _ => s) () () () () ⟨2, 4, "pipeline"⟩ [5, 2] 0
      (fun _ => []) 4).2, 1 ≤ p :=
  C6_pool_sizes 4 2 (fun s _ => s) () () () () ⟨2, 4, "pipeline"⟩ [5, 2] 0 (fun _ => []) 4
    rfl (by decide) (by decide) (by decide) (by decide)
    (fun _ => (by decide : (PipelineScore 4 2 () [5, 2] 0 []).outcome = Outcome.returned))
    (by decide)

/-! ## CheckEqual -/

end AutomatonBenchmark
